import Mathlib

/-!
Verification of the chimera-md render pipeline against its specification.

The Rust sources are shallowly embedded: pure functions become Lean
functions, the stateful `ResultCache` becomes explicit state passing over a
`WrappedCache` value, `usize` becomes `Nat` (with `Nat` truncated
subtraction noted where the source can underflow), and Rust `String` byte
lengths are `String.utf8ByteSize`.
-/

/-- ASCII lowercasing of a single character, as Rust's `to_ascii_lowercase`. -/
def asciiLowerChar (c : Char) : Char :=
  if 'A' ≤ c ∧ c ≤ 'Z' then Char.ofNat (c.toNat + 32) else c

/-- Rust `str::eq_ignore_ascii_case`. -/
def eqIgnoreAsciiCase (a b : String) : Bool :=
  a.data.map asciiLowerChar == b.data.map asciiLowerChar

/-- Lexicographic comparison of character lists by code point.  On UTF-8
data this agrees with Rust's byte-wise `Ord` for `String`, because UTF-8
preserves code-point order. -/
def lexCompare : List Char → List Char → Ordering
  | [], [] => .eq
  | [], _ :: _ => .lt
  | _ :: _, [] => .gt
  | a :: as, b :: bs => if a < b then .lt else if b < a then .gt else lexCompare as bs

/-- Rust `String::cmp` (byte-wise lexicographic). -/
def strCmp (a b : String) : Ordering := lexCompare a.data b.data

/-! ## ResultCache (src/result_cache.rs)

`CachedPage` keeps a modtime and the rendered HTML (`when` is only used by
the `Debug` impl and is dropped).  The `IndexMap<PathBuf, CachedPage>` is an
insertion-ordered association list with unique keys; paths are strings,
`SystemTime` is a `Nat`. -/

structure CachedPage where
  modtime : Nat
  html : String
deriving Repr, DecidableEq

structure WrappedCache where
  cache : List (String × CachedPage)
  current_size : Nat
  max_size : Nat
deriving Repr, DecidableEq

/-- `IndexMap::insert`: replace the value in place when the key exists
(keeping its position), otherwise append at the tail.  Returns the new map
and the previous value, like the Rust method. -/
def indexMapInsert (m : List (String × CachedPage)) (k : String) (v : CachedPage) :
    List (String × CachedPage) × Option CachedPage :=
  match m with
  | [] => ([(k, v)], none)
  | (k', v') :: rest =>
    if k' = k then ((k', v) :: rest, some v')
    else ((k', v') :: (indexMapInsert rest k v).1, (indexMapInsert rest k v).2)

/-- `IndexMap::get`. -/
def indexMapGet (m : List (String × CachedPage)) (k : String) : Option CachedPage :=
  match m with
  | [] => none
  | (k', v) :: rest => if k' = k then some v else indexMapGet rest k

/-- `ResultCache::add` (result_cache.rs:62-88).  `modtime` is the on-disk
modtime of `path` observed by `get_modtime` at call time.  Returns the
updated state and the `needs_compact` flag (`current_size > max_size`)
that triggers the `Compact` signal. -/
def ResultCache.add (w : WrappedCache) (path html : String) (modtime : Nat) :
    WrappedCache × Bool :=
  let page : CachedPage := { modtime := modtime, html := html }
  let size := page.html.utf8ByteSize
  let ins := indexMapInsert w.cache path page
  let cur := match ins.2 with
    | some p => w.current_size - p.html.utf8ByteSize
    | none => w.current_size
  let cur := cur + size
  ({ w with cache := ins.1, current_size := cur }, decide (cur > w.max_size))

/-- `ResultCache::get` (result_cache.rs:90-112).  `modtime` is the current
on-disk modtime of `path`.  Returns the hit (if any) and the `needs_clean`
flag that triggers the `Clean` signal. -/
def ResultCache.get (w : WrappedCache) (path : String) (modtime : Nat) :
    Option String × Bool :=
  match indexMapGet w.cache path with
  | some res => if res.modtime = modtime then (some res.html, false) else (none, true)
  | none => (none, false)

/-- `ResultCache::clear` (result_cache.rs:120-125): `lock.cache.clear()`.
The source does not touch `current_size` here. -/
def ResultCache.clear (w : WrappedCache) : WrappedCache :=
  { w with cache := [] }

/-- The `for (i, v) in lock.cache.values().enumerate()` loop of the
`Compact` arm (result_cache.rs:148-154): accumulate `prune_size` and break
with `split_index = i` the first time `prune_size > target`.  When the loop
finishes without breaking, `split_index` keeps its initial value `0`. -/
def compactScan (entries : List CachedPage) (target : Nat) (i prune : Nat) : Nat × Nat :=
  match entries with
  | [] => (0, prune)
  | v :: rest =>
    let prune' := prune + v.html.utf8ByteSize
    if prune' > target then (i, prune') else compactScan rest target (i + 1) prune'

/-- The `CacheAction::Compact` arm of `cache_compactor`
(result_cache.rs:140-158).  `split_off(split_index)` returns the entries
from `split_index` on, which the source assigns back to the cache, so the
retained map is `drop split_index`.  The two `usize` subtractions are `Nat`
truncated subtraction. -/
def ResultCache.compact (w : WrappedCache) : WrappedCache :=
  let target := w.current_size - w.max_size
  let (splitIndex, prune) := compactScan (w.cache.map Prod.snd) target 0 0
  { w with cache := w.cache.drop splitIndex, current_size := w.current_size - prune }

/-- The `CacheAction::Clean` arm of `cache_compactor`
(result_cache.rs:159-165): `lock.cache.clear()`, `current_size` untouched. -/
def ResultCache.clean (w : WrappedCache) : WrappedCache :=
  { w with cache := [] }

/-- Total byte size of the HTML values actually stored in the map. -/
def cacheBytes (m : List (String × CachedPage)) : Nat :=
  (m.map (fun e => e.2.html.utf8ByteSize)).sum

/-- The tracked size matches the stored HTML bytes. -/
def sizeInvariant (w : WrappedCache) : Prop :=
  w.current_size = cacheBytes w.cache

instance (w : WrappedCache) : Decidable (sizeInvariant w) := by
  unfold sizeInvariant; infer_instance

/-- A string of `n` copies of `c` (Rust `"a".repeat(n)`). -/
def repeatChar (c : Char) (n : Nat) : String := ⟨List.replicate n c⟩

/-- The cache state built by the repository's own `test_compact` test
(result_cache.rs:188-206): capacity 450, then five 100-byte pages are added
under distinct paths. -/
def testCompactState : WrappedCache :=
  let w : WrappedCache := { cache := [], current_size := 0, max_size := 450 }
  let w := (ResultCache.add w "a" (repeatChar 'a' 100) 0).1
  let w := (ResultCache.add w "b" (repeatChar 'b' 100) 0).1
  let w := (ResultCache.add w "c" (repeatChar 'c' 100) 0).1
  let w := (ResultCache.add w "d" (repeatChar 'd' 100) 0).1
  (ResultCache.add w "e" (repeatChar 'e' 100) 0).1

/-! ## DocumentScraper (src/document_scraper.rs)

The pulldown-cmark events relevant to the claims are embedded as an
inductive type.  `Event::Html` (inline-HTML heading scraping through
`heading_re` / `id_re`) and `Tag::MetadataBlock` (YAML front-matter) are not
modelled: no claim depends on them, and the failing inputs below use plain
Markdown headings and code blocks only, which produce none of those
events. -/

structure InternalLink where
  anchor : String
  name : String
  level : Nat
deriving Repr, DecidableEq

inductive CodeBlockKind where
  | indented : CodeBlockKind
  | fenced : String → CodeBlockKind
deriving Repr, DecidableEq

inductive Tag where
  | heading : Nat → Tag
  | codeBlock : CodeBlockKind → Tag
  | otherTag : Tag
deriving Repr, DecidableEq

inductive TagEnd where
  | heading : Nat → TagEnd
  | otherTagEnd : TagEnd
deriving Repr, DecidableEq

inductive Event where
  | start : Tag → Event
  | text : String → Event
  | endTag : TagEnd → Event
  | otherEvent : Event
deriving Repr, DecidableEq

/-- The fixed `CODE_LANGUAGES` allowlist (document_scraper.rs:41-47). -/
def codeLanguagesAllow : List String :=
  ["applescript", "bash", "c", "cpp", "csharp", "erlang", "fortran", "go", "haskell",
   "html", "ini", "java", "js", "make", "markdown", "objectivec", "perl", "php",
   "python", "r", "rust", "sql", "text", "xml", "yaml"]

structure DocumentScraper where
  internal_links : List InternalLink
  code_languages : List String
  metadata : List (String × String)
  title : Option String
  text_collector : Option String
  has_code_blocks : Bool
  starts_with_heading : Bool
  has_readable_text : Bool
deriving Repr, DecidableEq

def DocumentScraper.initial : DocumentScraper :=
  { internal_links := [], code_languages := [], metadata := [], title := none,
    text_collector := none, has_code_blocks := false,
    starts_with_heading := false, has_readable_text := false }

def isAsciiLowerAlnum (c : Char) : Bool :=
  ('a' ≤ c && c ≤ 'z') || ('0' ≤ c && c ≤ '9')

/-- The `slugify` crate on ASCII input: lowercase, keep alphanumeric runs,
join them with single hyphens, trim leading/trailing separators.
(Transliteration of non-ASCII input is outside the modelled fragment.) -/
def slugifyStr (s : String) : String :=
  ⟨List.intercalate ['-']
    (((s.data.map asciiLowerChar).splitOnP (fun c => !isAsciiLowerAlnum c)).filter
      (fun g => !g.isEmpty))⟩

/-- `HashMap::get` on the metadata map. -/
def metadataGet (m : List (String × String)) (k : String) : Option String :=
  match m with
  | [] => none
  | (k', v) :: rest => if k' = k then some v else metadataGet rest k

/-- `DocumentScraper::get_template` (document_scraper.rs:81-83). -/
def DocumentScraper.get_template (s : DocumentScraper) : String :=
  match metadataGet s.metadata "template" with
  | some v => v
  | none => "markdown.html"

/-- `DocumentScraper::check_event` (document_scraper.rs:85-216) restricted
to the modelled event alphabet. -/
def DocumentScraper.check_event (s : DocumentScraper) (ev : Event) : DocumentScraper :=
  match ev with
  | .start tag =>
    match tag with
    | .heading _level =>
      let s := if !s.has_readable_text then
        { s with starts_with_heading := true, has_readable_text := true } else s
      { s with text_collector := some "" }
    | .codeBlock kind =>
      let s := { s with has_code_blocks := true }
      match kind with
      | .fenced lang =>
        let lang : String := ⟨lang.data.map asciiLowerChar⟩
        if codeLanguagesAllow.contains lang then
          { s with code_languages := s.code_languages ++ [lang] }
        else s
      | .indented => s
    | .otherTag => { s with has_readable_text := true }
  | .text t =>
    match s.text_collector with
    | some name => { s with text_collector := some (name ++ t) }
    | none => s
  | .endTag tag =>
    match tag with
    | .heading level =>
      match s.text_collector with
      | some name =>
        let s := if s.title = none then { s with title := some name } else s
        { s with text_collector := none,
                 internal_links := s.internal_links ++
                   [{ anchor := slugifyStr name, name := name, level := level }] }
      | none => s
    | .otherTagEnd => s
  | .otherEvent => s

/-- `DocumentScraper::normalize_headings` (document_scraper.rs:223-242);
the identical free function also appears in html_generator.rs:295-319.
`last_used_level` / `last_seen_level` start at 0 and the list is rewritten
by the three-way comparison of each raw level against `last_seen_level`. -/
def normalizeHeadingsGo : List InternalLink → Nat → Nat → List InternalLink
  | [], _, _ => []
  | l :: rest, lastUsed, lastSeen =>
    if l.level > lastSeen then
      { l with level := lastUsed + 1 } :: normalizeHeadingsGo rest (lastUsed + 1) l.level
    else if l.level < lastSeen then
      l :: normalizeHeadingsGo rest l.level l.level
    else
      { l with level := lastUsed } :: normalizeHeadingsGo rest lastUsed lastSeen

def normalizeHeadings (links : List InternalLink) : List InternalLink :=
  normalizeHeadingsGo links 0 0

/-- The event-stream part of `parse_markdown` (document_scraper.rs:245-265):
fold `check_event` over the events, prepend the synthetic `top` link when the
document does not start with a heading, append the `contents` link for the
`index.html` template, then normalize heading levels. -/
def parseMarkdownScrape (events : List Event) : DocumentScraper :=
  let s := events.foldl DocumentScraper.check_event DocumentScraper.initial
  let s := if !s.starts_with_heading then
    { s with internal_links :=
        { anchor := "top", name := "Top", level := 1 } :: s.internal_links } else s
  let s := if s.get_template = "index.html" then
    { s with internal_links := s.internal_links ++
        [{ anchor := "contents", name := "Contents", level := 2 }] } else s
  { s with internal_links := normalizeHeadings s.internal_links }

/-- Does an event open a code block (of any kind)? -/
def isCodeBlockStart : Event → Bool
  | .start (.codeBlock _) => true
  | _ => false

/-- Does an event open a fenced code block? -/
def isFencedCodeBlockStart : Event → Bool
  | .start (.codeBlock (.fenced _)) => true
  | _ => false

/-- Consecutive heading levels never jump up by more than one (the property
the spec claims of normalized internal links). -/
def levelStepsOk : List Nat → Bool
  | a :: b :: rest => (b ≤ a + 1) && levelStepsOk (b :: rest)
  | _ => true

/-- The events pulldown-cmark produces for the document
`## A\n\n##### B\n\n#### C`. -/
def c4events : List Event :=
  [.start (.heading 2), .text "A", .endTag (.heading 2),
   .start (.heading 5), .text "B", .endTag (.heading 5),
   .start (.heading 4), .text "C", .endTag (.heading 4)]

/-! ## HtmlGenerator (src/html_generator.rs)

The heading-link structure is named `Doclink` in this revision of
html_generator.rs / file_manager.rs; it has the same fields as
`InternalLink` in document_scraper.rs, so `InternalLink` is reused. -/

/-- `ChimeraError` variants referenced by the modelled operations
(chimera_error.rs). -/
inductive ChimeraError where
  | missingMarkdownTemplate : ChimeraError
  | otherError : ChimeraError
deriving Repr, DecidableEq

/-- The `required_templates` array of `HtmlGenerator::new`
(html_generator.rs:83). -/
def requiredTemplates : List String := ["markdown", "error", "search"]

/-- The `for name in required_templates` loop of `HtmlGenerator::new`
(html_generator.rs:84-90): the first missing name aborts with
`ChimeraError::MissingMarkdownTemplate`.  `registered` is the set of
template names found in the template directory. -/
def checkRequiredTemplates (registered : List String) : List String → Except ChimeraError Unit
  | [] => .ok ()
  | n :: rest =>
    if registered.contains n then checkRequiredTemplates registered rest
    else .error .missingMarkdownTemplate

/-- The fallible part of `HtmlGenerator::new` (html_generator.rs:76-100):
after registering the template directory, validate the required template
names.  Construction of the `HtmlGenerator` value itself always succeeds. -/
def HtmlGenerator.newCheck (registered : List String) : Except ChimeraError Unit :=
  checkRequiredTemplates registered requiredTemplates

/-- `add_anchors_to_headings` (html_generator.rs:321-359), processing the
body character by character.  The model works over `List Char`; the source
slices `original_html.get(i..i+4)` by bytes, which for the ASCII heading
tags being matched is the next four characters (fewer than four remaining
bytes make the slice `None`).  In the source, when the fourth window
character is not `'>'`, the subsequent `slice_it.next() == Some(' ')` test
runs on the already exhausted four-character window and yields `None`, so
`link_index` is not advanced there; the model reproduces that by leaving
`linkIndex` unchanged on that path. -/
def addAnchorsGo (links : List InternalLink) : List Char → Nat → List Char
  | [], _ => []
  | c :: c1 :: c2 :: c3 :: rest', linkIndex =>
    if linkIndex < links.length ∧ c = '<' ∧ c1 = 'h' then
      if c3 = '>' then
        match links[linkIndex]? with
        | some link =>
          ('<' :: 'h' :: c2 :: (" id=\"".data ++ link.anchor.data ++ "\">".data))
            ++ addAnchorsGo links rest' (linkIndex + 1)
        | none => c :: addAnchorsGo links (c1 :: c2 :: c3 :: rest') linkIndex
      else
        c :: addAnchorsGo links (c1 :: c2 :: c3 :: rest') linkIndex
    else
      c :: addAnchorsGo links (c1 :: c2 :: c3 :: rest') linkIndex
  | c :: rest, linkIndex =>
    c :: addAnchorsGo links rest linkIndex

def addAnchorsToHeadings (original : String) (links : List InternalLink)
    (insertedTop : Bool) : String :=
  let startIndex := if insertedTop then 1 else 0
  if links.length = startIndex then original
  else ⟨addAnchorsGo links original.data startIndex⟩

/-- A filesystem path as its (already `.`-normalized) components, the way
`Path::components` yields them. -/
structure FsPath where
  absolute : Bool
  components : List String
deriving Repr, DecidableEq

/-- `Path::file_name`: the final component unless it is `..` (or the path
has no components). -/
def pathFileName (p : FsPath) : Option String :=
  match p.components.getLast? with
  | none => none
  | some c => if c = ".." then none else some c

/-- `Path::to_string_lossy` for a normalized component list. -/
def pathToString (p : FsPath) : String :=
  (if p.absolute then "/" else "") ++ String.intercalate "/" p.components

/-- The `title` computation of `HtmlGenerator::gen_markdown`
(html_generator.rs:139-146,154): `scraper.title.unwrap_or_else` falls back
to `path.file_name()`, else the whole path string, and the template sees
`format!("{}: {}", self.site_title, title)` (written here without a format
string). -/
def genMarkdownTitle (siteTitle : String) (scraper : DocumentScraper) (path : FsPath) :
    String :=
  let title := match scraper.title with
    | some t => t
    | none =>
      match pathFileName path with
      | some name => name
      | none => pathToString path
  siteTitle ++ ": " ++ title

/-! ## FileManager::find_peers (src/file_manager.rs) -/

structure PeerInfo where
  files : List InternalLink
  folders : List InternalLink
deriving Repr, DecidableEq

/-- The comparator passed to `peers.files.sort_unstable_by`
(file_manager.rs:149-159). -/
def findPeersFilesCmp (indexFile : String) (a b : InternalLink) : Ordering :=
  if eqIgnoreAsciiCase a.name indexFile then .lt
  else if eqIgnoreAsciiCase b.name indexFile then .gt
  else strCmp a.name b.name

/-- `a` sorts no later than `b` under the file comparator. -/
def fileLe (indexFile : String) (a b : InternalLink) : Prop :=
  findPeersFilesCmp indexFile a b ≠ .gt

instance (indexFile : String) : DecidableRel (fileLe indexFile) := fun _ _ => by
  unfold fileLe; infer_instance

/-- `a` sorts no later than `b` under the folder comparator
(`a.name.cmp(&b.name)`, file_manager.rs:160-162). -/
def folderLe (a b : InternalLink) : Prop :=
  strCmp a.name b.name ≠ .gt

instance : DecidableRel folderLe := fun _ _ => by
  unfold folderLe; infer_instance

/-- The sorting phase of `FileManager::find_peers` (file_manager.rs:148-163).
`sort_unstable_by` is modelled as a comparison sort agreeing with the
comparator (the source relies on no stability). -/
def findPeersSort (indexFile : String) (peers : PeerInfo) : PeerInfo :=
  { files := List.insertionSort (fileLe indexFile) peers.files,
    folders := List.insertionSort folderLe peers.folders }

/-! ## normalize_ranges (src/full_text_index.rs) -/

/-- Rust `Range<usize>` (`end` is a Lean keyword, so the field is `stop`). -/
structure Span where
  start : Nat
  stop : Nat
deriving Repr, DecidableEq

/-- The `ranges.iter().for_each` loop of `normalize_ranges`
(full_text_index.rs:168-179), carried out over the `(start, end, results)`
state. -/
def normLoop : List Span → Nat → Nat → List Span → Nat × Nat × List Span
  | [], s, e, acc => (s, e, acc)
  | r :: rest, s, e, acc =>
    if e < r.start then
      normLoop rest r.start r.stop (if s = e then acc else acc ++ [⟨s, e⟩])
    else
      normLoop rest s r.stop acc

/-- The trailing `if start != end { results.push(..) }`
(full_text_index.rs:180-182). -/
def flushSpans : Nat × Nat × List Span → List Span
  | (s, e, acc) => if s = e then acc else acc ++ [⟨s, e⟩]

/-- `normalize_ranges` (full_text_index.rs:164-185). -/
def normalizeRanges (ranges : List Span) : List Span :=
  flushSpans (normLoop ranges 0 0 [])

/-- Is position `n` inside span `sp`? -/
def spanContains (sp : Span) (n : Nat) : Bool :=
  decide (sp.start ≤ n) && decide (n < sp.stop)

/-- Is position `n` inside some span of `l` (the union of the ranges)? -/
def coveredBy (l : List Span) (n : Nat) : Bool :=
  l.any (fun sp => spanContains sp n)

/-! ## Supporting lemmas -/

theorem indexMapGet_insert (m : List (String × CachedPage)) (k : String) (v : CachedPage) :
    indexMapGet (indexMapInsert m k v).1 k = some v := by
  induction m with
  | nil => simp [indexMapInsert, indexMapGet]
  | cons hd tl ih =>
    obtain ⟨k', v'⟩ := hd
    by_cases h : k' = k <;> simp [indexMapInsert, indexMapGet, h, ih]

/-! ## Claim theorems -/

/-- C1: refutation by evaluation at the repository's own `test_compact`
scenario (five 100-byte pages, 450-byte cap).  The compaction loop breaks
with `split_index = 0` because the very first page already exceeds
`current_size - max_size = 50`, yet `split_off(0)` discards nothing: the
retained map still holds all 500 bytes — more than `max_size` — while the
tracked `current_size` is decremented to 400 anyway.  The claim says the
prefix through the tipping entry is discarded and the retained bytes are at
most `max_size`. -/
theorem resultCache_compactor_retains_excess :
    sizeInvariant testCompactState ∧
    testCompactState.current_size = 500 ∧
    testCompactState.max_size = 450 ∧
    (ResultCache.compact testCompactState).cache = testCompactState.cache ∧
    (ResultCache.compact testCompactState).current_size = 400 ∧
    cacheBytes (ResultCache.compact testCompactState).cache = 500 ∧
    ¬ cacheBytes (ResultCache.compact testCompactState).cache ≤ testCompactState.max_size := by
  decide

/-- C2: refutation by evaluation.  `ResultCache::clear` (and the `Clean`
compactor arm) empty the map but leave `current_size` at its old value, so
the tracked size no longer equals the summed byte size of the stored HTML
(which is 0 for the empty map). -/
theorem resultCache_clear_breaks_size_invariant :
    sizeInvariant testCompactState ∧
    (ResultCache.clear testCompactState).cache = [] ∧
    (ResultCache.clear testCompactState).current_size = 500 ∧
    ¬ sizeInvariant (ResultCache.clear testCompactState) ∧
    ¬ sizeInvariant (ResultCache.clean testCompactState) := by
  decide

/-- C3: after `add(path, html)` with on-disk modtime `m`, a `get(path)`
that observes the same on-disk modtime `m` returns the stored HTML
byte-for-byte with no cleanup signal, and a `get(path)` that observes a
different on-disk modtime `m'` misses and emits the `Clean` signal. -/
theorem resultCache_add_then_get (w : WrappedCache) (path html : String) (m m' : Nat) :
    ResultCache.get (ResultCache.add w path html m).1 path m = (some html, false) ∧
    (m' ≠ m → ResultCache.get (ResultCache.add w path html m).1 path m' = (none, true)) := by
  have hg : indexMapGet (ResultCache.add w path html m).1.cache path =
      some { modtime := m, html := html } := by
    simpa [ResultCache.add] using
      indexMapGet_insert w.cache path { modtime := m, html := html }
  constructor
  · simp [ResultCache.get, hg]
  · intro hne
    simp [ResultCache.get, hg]
    intro heq
    exact absurd heq.symm hne

/-- C3 witness at a concrete cache, path, page and pair of modtimes. -/
theorem resultCache_add_then_get_witness :
    ((2 : Nat) ≠ 1) ∧
    ResultCache.get (ResultCache.add ⟨[], 0, 1000⟩ "home/readme.md" "<p>hi</p>" 1).1
      "home/readme.md" 1 = (some "<p>hi</p>", false) ∧
    ResultCache.get (ResultCache.add ⟨[], 0, 1000⟩ "home/readme.md" "<p>hi</p>" 1).1
      "home/readme.md" 2 = (none, true) :=
  ⟨by decide,
   (resultCache_add_then_get ⟨[], 0, 1000⟩ "home/readme.md" "<p>hi</p>" 1 2).1,
   (resultCache_add_then_get ⟨[], 0, 1000⟩ "home/readme.md" "<p>hi</p>" 1 2).2 (by decide)⟩

/-- C4: refutation by evaluation.  For the document
`## A\n\n##### B\n\n#### C` the scraped levels are `[2, 5, 4]`;
normalization maps them to `[1, 2, 4]`: the outdent from raw level 5 to raw
level 4 keeps the raw level verbatim, so consecutive normalized levels jump
from 2 to 4, violating `l[i+1].level ≤ l[i].level + 1`. -/
theorem normalizeHeadings_outdent_level_jump :
    ((parseMarkdownScrape c4events).internal_links.map
        (fun l => (l.anchor, l.name, l.level))) =
      [("a", "A", 1), ("b", "B", 2), ("c", "C", 4)] ∧
    levelStepsOk ((parseMarkdownScrape c4events).internal_links.map
        (fun l => l.level)) = false := by
  decide

/-- C5: refutation by evaluation.  For the body
`<h1 id="a">x</h1><h2>y</h2>` with links `[a, b]` (no synthesized top), the
id-carrying `<h1` does not advance the link index — the source's
`slice_it.next() == Some(' ')` test runs on an exhausted iterator — so the
following bare `<h2>` is rewritten with the *first* anchor `a` instead of
`b` as the claim requires. -/
theorem addAnchors_id_heading_not_skipped :
    addAnchorsToHeadings "<h1 id=\"a\">x</h1><h2>y</h2>"
        [⟨"a", "x", 1⟩, ⟨"b", "y", 2⟩] false =
      "<h1 id=\"a\">x</h1><h2 id=\"a\">y</h2>" ∧
    addAnchorsToHeadings "<h1 id=\"a\">x</h1><h2>y</h2>"
        [⟨"a", "x", 1⟩, ⟨"b", "y", 2⟩] false ≠
      "<h1 id=\"a\">x</h1><h2 id=\"b\">y</h2>" := by
  decide

theorem checkRequiredTemplates_isOk_false (registered : List String) (l : List String) :
    (checkRequiredTemplates registered l).isOk = false ↔
      ∃ t ∈ l, registered.contains t = false := by
  induction l with
  | nil => simp [checkRequiredTemplates, Except.isOk, Except.toBool]
  | cons n rest ih =>
    by_cases h : registered.contains n
    · have hok : checkRequiredTemplates registered (n :: rest) =
          checkRequiredTemplates registered rest := by
        simp only [checkRequiredTemplates]
        rw [if_pos h]
      rw [hok, ih]
      constructor
      · rintro ⟨t, ht, hc⟩
        exact ⟨t, List.mem_cons_of_mem _ ht, hc⟩
      · rintro ⟨t, ht, hc⟩
        rcases List.mem_cons.mp ht with rfl | htr
        · rw [h] at hc; cases hc
        · exact ⟨t, htr, hc⟩
    · simp only [Bool.not_eq_true] at h
      have herr : checkRequiredTemplates registered (n :: rest) =
          Except.error ChimeraError.missingMarkdownTemplate := by
        simp only [checkRequiredTemplates]
        rw [if_neg (by rw [h]; exact Bool.false_ne_true)]
      rw [herr]
      constructor
      · intro _; exact ⟨n, List.mem_cons_self n rest, h⟩
      · intro _; rfl

/-- C6 (amended): `HtmlGenerator::new` fails (with
`ChimeraError::MissingMarkdownTemplate`) exactly when one of the templates
named `markdown` (the document template), `error`, `search` is not
registered; the directory-index template `index` is not checked. -/
theorem htmlGenerator_newCheck_fatal_iff (registered : List String) :
    (HtmlGenerator.newCheck registered).isOk = false ↔
      ∃ t ∈ requiredTemplates, registered.contains t = false :=
  checkRequiredTemplates_isOk_false registered requiredTemplates

/-- C6 counterexample: with exactly `markdown`, `error`, `search`
registered, initialization succeeds, yet the claim's required set also
contains the directory-index template (`index`), which is missing — so
"fatal error iff one of document, directory-index, search, error is
missing" is false as stated. -/
theorem htmlGenerator_missing_index_template_no_error :
    (HtmlGenerator.newCheck ["markdown", "error", "search"]).isOk = true ∧
    ¬ (((HtmlGenerator.newCheck ["markdown", "error", "search"]).isOk = false) ↔
        ∃ t ∈ ["markdown", "index", "search", "error"],
          (["markdown", "error", "search"] : List String).contains t = false) := by
  decide

theorem check_event_has_code_blocks (s : DocumentScraper) (ev : Event) :
    (DocumentScraper.check_event s ev).has_code_blocks =
      (s.has_code_blocks || isCodeBlockStart ev) := by
  cases ev with
  | start tag =>
    cases tag with
    | heading level =>
      simp only [DocumentScraper.check_event, isCodeBlockStart]
      split <;> simp
    | codeBlock kind =>
      cases kind with
      | indented => simp [DocumentScraper.check_event, isCodeBlockStart]
      | fenced lang =>
        simp only [DocumentScraper.check_event, isCodeBlockStart]
        split <;> simp
    | otherTag => simp [DocumentScraper.check_event, isCodeBlockStart]
  | text t =>
    simp only [DocumentScraper.check_event, isCodeBlockStart]
    cases s.text_collector <;> simp
  | endTag tag =>
    cases tag with
    | heading level =>
      rcases h : s.text_collector with _ | name
      · simp [DocumentScraper.check_event, h, isCodeBlockStart]
      · simp only [DocumentScraper.check_event, h, isCodeBlockStart]
        split <;> simp
    | otherTagEnd => simp [DocumentScraper.check_event, isCodeBlockStart]
  | otherEvent => simp [DocumentScraper.check_event, isCodeBlockStart]

theorem foldl_check_event_has_code_blocks (events : List Event) :
    ∀ s : DocumentScraper,
      (events.foldl DocumentScraper.check_event s).has_code_blocks =
        (s.has_code_blocks || events.any isCodeBlockStart) := by
  induction events with
  | nil => intro s; simp
  | cons ev rest ih =>
    intro s
    simp only [List.foldl_cons, List.any_cons]
    rw [ih, check_event_has_code_blocks, Bool.or_assoc]

/-- C9 (amended): the scrape's `has_code_blocks` flag is true exactly when
the document contains at least one code block of any kind — fenced or
indented (`Tag::CodeBlock` matches both). -/
theorem hasCodeBlocks_iff_any_code_block (events : List Event) :
    (parseMarkdownScrape events).has_code_blocks = true ↔
      events.any isCodeBlockStart = true := by
  have h1 : (parseMarkdownScrape events).has_code_blocks =
      (events.foldl DocumentScraper.check_event DocumentScraper.initial).has_code_blocks := by
    simp only [parseMarkdownScrape]
    split <;> split <;> rfl
  rw [h1, foldl_check_event_has_code_blocks]
  simp [DocumentScraper.initial]

/-- C9 counterexample: an indented (non-fenced) code block sets
`has_code_blocks`, so "true exactly when at least one *fenced* block was
seen" fails as stated. -/
theorem hasCodeBlocks_true_for_indented_block :
    (parseMarkdownScrape [Event.start (Tag.codeBlock CodeBlockKind.indented)]).has_code_blocks
        = true ∧
    ([Event.start (Tag.codeBlock CodeBlockKind.indented)]).any isFencedCodeBlockStart = false ∧
    ¬ ((parseMarkdownScrape
          [Event.start (Tag.codeBlock CodeBlockKind.indented)]).has_code_blocks = true ↔
        ([Event.start (Tag.codeBlock CodeBlockKind.indented)]).any isFencedCodeBlockStart
          = true) := by
  decide

/-- C10: when the scraper produced no title, the rendered page's `title`
variable is the site title, a separator, and the file-name component of the
document path — or the whole path string when the path has no file-name
component. -/
theorem genMarkdownTitle_fallback (siteTitle : String) (scraper : DocumentScraper)
    (path : FsPath) (h : scraper.title = none) :
    (∀ name, pathFileName path = some name →
      genMarkdownTitle siteTitle scraper path = siteTitle ++ ": " ++ name) ∧
    (pathFileName path = none →
      genMarkdownTitle siteTitle scraper path = siteTitle ++ ": " ++ pathToString path) := by
  constructor
  · intro name hn; simp [genMarkdownTitle, h, hn]
  · intro hn; simp [genMarkdownTitle, h, hn]

/-- C10 witness at a titleless scrape and the path `home/readme.md`. -/
theorem genMarkdownTitle_fallback_witness :
    DocumentScraper.initial.title = none ∧
    ((∀ name, pathFileName ⟨false, ["home", "readme.md"]⟩ = some name →
        genMarkdownTitle "Chimera" DocumentScraper.initial ⟨false, ["home", "readme.md"]⟩ =
          "Chimera" ++ ": " ++ name) ∧
     (pathFileName ⟨false, ["home", "readme.md"]⟩ = none →
        genMarkdownTitle "Chimera" DocumentScraper.initial ⟨false, ["home", "readme.md"]⟩ =
          "Chimera" ++ ": " ++ pathToString ⟨false, ["home", "readme.md"]⟩)) :=
  ⟨rfl, genMarkdownTitle_fallback "Chimera" DocumentScraper.initial ⟨false, ["home", "readme.md"]⟩ rfl⟩

theorem lexCompare_swap (a : List Char) : ∀ b, (lexCompare a b).swap = lexCompare b a := by
  induction a with
  | nil => intro b; cases b <;> rfl
  | cons x xs ih =>
    intro b
    cases b with
    | nil => rfl
    | cons y ys =>
      simp only [lexCompare]
      by_cases h1 : x < y
      · have h2 : ¬ y < x := lt_asymm h1
        simp [h1, h2, Ordering.swap]
      · by_cases h2 : y < x
        · simp [h1, h2, Ordering.swap]
        · simp [h1, h2, ih ys]

theorem lexCompare_le_trans (a : List Char) :
    ∀ b c, lexCompare a b ≠ .gt → lexCompare b c ≠ .gt → lexCompare a c ≠ .gt := by
  induction a with
  | nil => intro b c _ _; cases c <;> simp [lexCompare]
  | cons x xs ih =>
    intro b c hab hbc
    cases b with
    | nil => simp [lexCompare] at hab
    | cons y ys =>
      cases c with
      | nil => simp [lexCompare] at hbc
      | cons z zs =>
        simp only [lexCompare] at hab hbc ⊢
        rcases lt_trichotomy x y with h1 | h1 | h1
        · rcases lt_trichotomy y z with h2 | h2 | h2
          · simp [lt_trans h1 h2]
          · subst h2; simp [h1]
          · rw [if_neg (lt_asymm h2), if_pos h2] at hbc
            exact absurd rfl hbc
        · subst h1
          rw [if_neg (lt_irrefl x), if_neg (lt_irrefl x)] at hab
          rcases lt_trichotomy x z with h2 | h2 | h2
          · simp [h2]
          · subst h2
            rw [if_neg (lt_irrefl x), if_neg (lt_irrefl x)] at hbc
            rw [if_neg (lt_irrefl x), if_neg (lt_irrefl x)]
            exact ih ys zs hab hbc
          · rw [if_neg (lt_asymm h2), if_pos h2] at hbc
            exact absurd rfl hbc
        · rw [if_neg (lt_asymm h1), if_pos h1] at hab
          exact absurd rfl hab

theorem strCmp_ne_gt_total (a b : String) : strCmp a b ≠ .gt ∨ strCmp b a ≠ .gt := by
  by_cases h : strCmp a b = .gt
  · right
    unfold strCmp at h ⊢
    rw [← lexCompare_swap, h]
    simp [Ordering.swap]
  · left; exact h

theorem strCmp_le_trans (a b c : String) :
    strCmp a b ≠ .gt → strCmp b c ≠ .gt → strCmp a c ≠ .gt :=
  lexCompare_le_trans a.data b.data c.data

theorem folderLe_total (a b : InternalLink) : folderLe a b ∨ folderLe b a :=
  strCmp_ne_gt_total a.name b.name

theorem folderLe_trans (a b c : InternalLink) : folderLe a b → folderLe b c → folderLe a c :=
  strCmp_le_trans a.name b.name c.name

theorem fileLe_total (idx : String) (a b : InternalLink) : fileLe idx a b ∨ fileLe idx b a := by
  unfold fileLe findPeersFilesCmp
  by_cases ha : eqIgnoreAsciiCase a.name idx = true
  · left; simp [ha]
  · by_cases hb : eqIgnoreAsciiCase b.name idx = true
    · right; simp [hb]
    · rcases strCmp_ne_gt_total a.name b.name with h | h
      · left; simpa [ha, hb] using h
      · right; simpa [ha, hb] using h

theorem fileLe_trans (idx : String) (a b c : InternalLink) :
    fileLe idx a b → fileLe idx b c → fileLe idx a c := by
  unfold fileLe findPeersFilesCmp
  intro hab hbc
  by_cases ha : eqIgnoreAsciiCase a.name idx = true
  · simp [ha]
  · by_cases hb : eqIgnoreAsciiCase b.name idx = true
    · simp [ha, hb] at hab
    · by_cases hc : eqIgnoreAsciiCase c.name idx = true
      · simp [hb, hc] at hbc
      · simp only [ha, hb, hc, Bool.false_eq_true, if_false] at hab hbc ⊢
        exact strCmp_le_trans a.name b.name c.name hab hbc

theorem fileLe_elim (idx : String) (a b : InternalLink) (h : fileLe idx a b) :
    eqIgnoreAsciiCase a.name idx = true ∨
      (eqIgnoreAsciiCase b.name idx = false ∧ strCmp a.name b.name ≠ .gt) := by
  unfold fileLe findPeersFilesCmp at h
  by_cases ha : eqIgnoreAsciiCase a.name idx = true
  · exact Or.inl ha
  · right
    by_cases hb : eqIgnoreAsciiCase b.name idx = true
    · simp [ha, hb] at h
    · simp only [Bool.not_eq_true] at ha hb
      exact ⟨hb, by simpa [ha, hb] using h⟩

/-- C7 (amended): `find_peers` returns permutations of the collected peer
lists in which any file whose name matches the configured index filename
case-insensitively sorts first, the remaining files are ordered by
byte-wise (case-sensitive) name comparison, and folders are ordered by
byte-wise name comparison. -/
theorem findPeers_sort_order (indexFile : String) (peers : PeerInfo) :
    (findPeersSort indexFile peers).files.Perm peers.files ∧
    (findPeersSort indexFile peers).folders.Perm peers.folders ∧
    List.Pairwise (fun a b : InternalLink =>
      eqIgnoreAsciiCase a.name indexFile = true ∨
        (eqIgnoreAsciiCase b.name indexFile = false ∧ strCmp a.name b.name ≠ .gt))
      (findPeersSort indexFile peers).files ∧
    List.Pairwise (fun a b : InternalLink => strCmp a.name b.name ≠ .gt)
      (findPeersSort indexFile peers).folders := by
  haveI : IsTotal InternalLink (fileLe indexFile) := ⟨fileLe_total indexFile⟩
  haveI : IsTrans InternalLink (fileLe indexFile) := ⟨fileLe_trans indexFile⟩
  haveI : IsTotal InternalLink folderLe := ⟨folderLe_total⟩
  haveI : IsTrans InternalLink folderLe := ⟨folderLe_trans⟩
  refine ⟨List.perm_insertionSort _ _, List.perm_insertionSort _ _, ?_, ?_⟩
  · exact List.Pairwise.imp (fun {a b} hab => fileLe_elim indexFile a b hab)
      (List.sorted_insertionSort (fileLe indexFile) peers.files)
  · exact List.sorted_insertionSort folderLe peers.folders

/-- C7 counterexample: with peers `a.md` and `B.md` and index file
`index.md`, the sorted order is `[B.md, a.md]` (byte order, uppercase
first), although case-insensitively `a.md` precedes `B.md` — so "remaining
files are ordered by name case-insensitively" is false as stated. -/
theorem findPeers_files_case_sensitive_order :
    ((findPeersSort "index.md" ⟨[⟨"a.md", "a.md", 1⟩, ⟨"B.md", "B.md", 1⟩], []⟩).files.map
      (fun l => l.name)) = ["B.md", "a.md"] ∧
    lexCompare ("a.md".data.map asciiLowerChar) ("B.md".data.map asciiLowerChar) = .lt ∧
    lexCompare ("B.md".data.map asciiLowerChar) ("a.md".data.map asciiLowerChar) = .gt := by
  decide

theorem coveredBy_nil (n : Nat) : coveredBy [] n = false := rfl

theorem coveredBy_cons (sp : Span) (l : List Span) (n : Nat) :
    coveredBy (sp :: l) n = (spanContains sp n || coveredBy l n) := by
  simp [coveredBy]

theorem coveredBy_append (l₁ l₂ : List Span) (n : Nat) :
    coveredBy (l₁ ++ l₂) n = (coveredBy l₁ n || coveredBy l₂ n) := by
  simp [coveredBy]

theorem spanContains_true_iff (sp : Span) (n : Nat) :
    spanContains sp n = true ↔ (sp.start ≤ n ∧ n < sp.stop) := by
  simp [spanContains]

theorem normLoop_spec (ranges : List Span) :
    ∀ (s e : Nat) (acc : List Span),
      (∀ r ∈ ranges, r.start ≤ r.stop) →
      (∀ r ∈ ranges, s ≤ r.start) →
      (∀ r ∈ ranges, e ≤ r.stop) →
      List.Pairwise (fun a b : Span => a.start ≤ b.start ∧ a.stop ≤ b.stop) ranges →
      s ≤ e →
      (∀ sp ∈ acc, sp.start < sp.stop) →
      (∀ sp ∈ acc, sp.stop < s) →
      List.Pairwise (fun a b : Span => a.stop < b.start) acc →
      (∀ sp ∈ flushSpans (normLoop ranges s e acc), sp.start < sp.stop) ∧
      List.Pairwise (fun a b : Span => a.stop < b.start) (flushSpans (normLoop ranges s e acc)) ∧
      (∀ n, coveredBy (flushSpans (normLoop ranges s e acc)) n = true ↔
        (coveredBy acc n = true ∨ (s ≤ n ∧ n < e) ∨ coveredBy ranges n = true)) := by
  induction ranges with
  | nil =>
    intro s e acc _ _ _ _ hse hwf hlt hpw
    by_cases hone : s = e
    · subst hone
      simp only [normLoop, flushSpans, if_pos rfl]
      refine ⟨hwf, hpw, ?_⟩
      intro n
      rw [coveredBy_nil]
      constructor
      · exact fun h => Or.inl h
      · rintro (h | ⟨ha, hb⟩ | h)
        · exact h
        · omega
        · cases h
    · simp only [normLoop, flushSpans, if_neg hone]
      have hslt : s < e := Nat.lt_of_le_of_ne hse hone
      refine ⟨?_, ?_, ?_⟩
      · intro sp hsp
        rcases List.mem_append.mp hsp with h | h
        · exact hwf sp h
        · rw [List.mem_singleton.mp h]; exact hslt
      · rw [List.pairwise_append]
        refine ⟨hpw, List.pairwise_singleton _ _, ?_⟩
        intro a ha b hb
        rw [List.mem_singleton.mp hb]
        exact hlt a ha
      · intro n
        simp only [coveredBy_append, coveredBy_cons, coveredBy_nil, Bool.or_eq_true,
          Bool.or_false, spanContains_true_iff, Bool.false_eq_true]
        tauto
  | cons r rest ih =>
    intro s e acc h1 h2 h3 hpair hse hwf hlt hpw
    have h1r := h1 r (List.mem_cons_self r rest)
    have h2r := h2 r (List.mem_cons_self r rest)
    have h3r := h3 r (List.mem_cons_self r rest)
    rw [List.pairwise_cons] at hpair
    obtain ⟨hhead, htail⟩ := hpair
    by_cases hbr : e < r.start
    · have hstep : normLoop (r :: rest) s e acc =
          normLoop rest r.start r.stop (if s = e then acc else acc ++ [⟨s, e⟩]) := by
        simp [normLoop, hbr]
      rw [hstep]
      have hwf' : ∀ sp ∈ (if s = e then acc else acc ++ [⟨s, e⟩]), sp.start < sp.stop := by
        intro sp hsp
        by_cases hone : s = e
        · rw [if_pos hone] at hsp; exact hwf sp hsp
        · rw [if_neg hone] at hsp
          rcases List.mem_append.mp hsp with h | h
          · exact hwf sp h
          · rw [List.mem_singleton.mp h]
            exact Nat.lt_of_le_of_ne hse hone
      have hlt' : ∀ sp ∈ (if s = e then acc else acc ++ [⟨s, e⟩]), sp.stop < r.start := by
        intro sp hsp
        by_cases hone : s = e
        · rw [if_pos hone] at hsp
          exact Nat.lt_of_lt_of_le (hlt sp hsp) (Nat.le_trans hse (Nat.le_of_lt hbr))
        · rw [if_neg hone] at hsp
          rcases List.mem_append.mp hsp with h | h
          · exact Nat.lt_of_lt_of_le (hlt sp h) (Nat.le_trans hse (Nat.le_of_lt hbr))
          · rw [List.mem_singleton.mp h]
            exact hbr
      have hpw' : List.Pairwise (fun a b : Span => a.stop < b.start)
          (if s = e then acc else acc ++ [⟨s, e⟩]) := by
        by_cases hone : s = e
        · rw [if_pos hone]; exact hpw
        · rw [if_neg hone, List.pairwise_append]
          refine ⟨hpw, List.pairwise_singleton _ _, ?_⟩
          intro a ha b hb
          rw [List.mem_singleton.mp hb]
          exact hlt a ha
      obtain ⟨c1, c2, c3⟩ := ih r.start r.stop (if s = e then acc else acc ++ [⟨s, e⟩])
        (fun r' hr' => h1 r' (List.mem_cons_of_mem _ hr'))
        (fun r' hr' => (hhead r' hr').1)
        (fun r' hr' => (hhead r' hr').2)
        htail h1r hwf' hlt' hpw'
      refine ⟨c1, c2, ?_⟩
      intro n
      rw [c3 n]
      have hca : (coveredBy (if s = e then acc else acc ++ [⟨s, e⟩]) n = true) ↔
          (coveredBy acc n = true ∨ (s ≤ n ∧ n < e)) := by
        by_cases hone : s = e
        · rw [if_pos hone]
          subst hone
          constructor
          · exact fun h => Or.inl h
          · rintro (h | ⟨ha, hb⟩)
            · exact h
            · omega
        · rw [if_neg hone, coveredBy_append, coveredBy_cons, coveredBy_nil]
          simp only [Bool.or_eq_true, spanContains_true_iff]
          constructor
          · rintro (h | ⟨ha, hb⟩ | h)
            · exact Or.inl h
            · exact Or.inr ⟨ha, hb⟩
            · cases h
          · rintro (h | ⟨ha, hb⟩)
            · exact Or.inl h
            · exact Or.inr (Or.inl ⟨ha, hb⟩)
      rw [hca, coveredBy_cons]
      simp only [Bool.or_eq_true, spanContains_true_iff]
      constructor
      · rintro ((h | h) | h | h)
        · exact Or.inl h
        · exact Or.inr (Or.inl h)
        · exact Or.inr (Or.inr (Or.inl h))
        · exact Or.inr (Or.inr (Or.inr h))
      · rintro (h | h | (h | h))
        · exact Or.inl (Or.inl h)
        · exact Or.inl (Or.inr h)
        · exact Or.inr (Or.inl h)
        · exact Or.inr (Or.inr h)
    · have hstep : normLoop (r :: rest) s e acc = normLoop rest s r.stop acc := by
        simp [normLoop, hbr]
      rw [hstep]
      have hle : r.start ≤ e := Nat.le_of_not_lt hbr
      obtain ⟨c1, c2, c3⟩ := ih s r.stop acc
        (fun r' hr' => h1 r' (List.mem_cons_of_mem _ hr'))
        (fun r' hr' => Nat.le_trans h2r (hhead r' hr').1)
        (fun r' hr' => (hhead r' hr').2)
        htail (Nat.le_trans hse h3r) hwf hlt hpw
      refine ⟨c1, c2, ?_⟩
      intro n
      rw [c3 n, coveredBy_cons]
      simp only [Bool.or_eq_true, spanContains_true_iff]
      have hiv : (s ≤ n ∧ n < r.stop) ↔ ((s ≤ n ∧ n < e) ∨ (r.start ≤ n ∧ n < r.stop)) := by
        omega
      rw [hiv]
      constructor
      · rintro (h | (h | h) | h)
        · exact Or.inl h
        · exact Or.inr (Or.inl h)
        · exact Or.inr (Or.inr (Or.inl h))
        · exact Or.inr (Or.inr (Or.inr h))
      · rintro (h | h | (h | h))
        · exact Or.inl h
        · exact Or.inr (Or.inl (Or.inl h))
        · exact Or.inr (Or.inl (Or.inr h))
        · exact Or.inr (Or.inr h)

/-- C8 (amended): for highlight ranges ordered by start whose ends are also
nondecreasing (no range nested inside an earlier one) and with
`start ≤ end` each, `normalize_ranges` returns nonempty spans that are
pairwise disjoint and ordered by start (each span ends strictly before the
next begins), and the union of the output spans equals the union of the
input ranges. -/
theorem normalizeRanges_disjoint_ordered_union (ranges : List Span)
    (hwf : ∀ r ∈ ranges, r.start ≤ r.stop)
    (hsorted : List.Pairwise (fun a b : Span => a.start ≤ b.start ∧ a.stop ≤ b.stop) ranges) :
    (∀ sp ∈ normalizeRanges ranges, sp.start < sp.stop) ∧
    List.Pairwise (fun a b : Span => a.stop < b.start) (normalizeRanges ranges) ∧
    (∀ n, coveredBy (normalizeRanges ranges) n = coveredBy ranges n) := by
  obtain ⟨c1, c2, c3⟩ := normLoop_spec ranges 0 0 [] hwf
    (fun r _ => Nat.zero_le _) (fun r _ => Nat.zero_le _) hsorted (Nat.le_refl 0)
    (fun sp h => absurd h (List.not_mem_nil sp))
    (fun sp h => absurd h (List.not_mem_nil sp))
    List.Pairwise.nil
  refine ⟨c1, c2, ?_⟩
  intro n
  have hiff : coveredBy (normalizeRanges ranges) n = true ↔ coveredBy ranges n = true := by
    rw [show normalizeRanges ranges = flushSpans (normLoop ranges 0 0 []) from rfl, c3 n,
        coveredBy_nil]
    constructor
    · rintro (h | ⟨ha, hb⟩ | h)
      · cases h
      · omega
      · exact h
    · exact fun h => Or.inr (Or.inr h)
  cases h1 : coveredBy (normalizeRanges ranges) n
  · cases h2 : coveredBy ranges n
    · rfl
    · rw [hiff.mpr h2] at h1; cases h1
  · rw [hiff.mp h1]

/-- C8 witness: the amended theorem applied to the overlapping pair
`[0,4)`, `[1,5)`, which merges to the single span `[0,5)`. -/
theorem normalizeRanges_disjoint_ordered_union_witness :
    (∀ r ∈ [Span.mk 0 4, Span.mk 1 5], r.start ≤ r.stop) ∧
    List.Pairwise (fun a b : Span => a.start ≤ b.start ∧ a.stop ≤ b.stop)
      [Span.mk 0 4, Span.mk 1 5] ∧
    ((∀ sp ∈ normalizeRanges [Span.mk 0 4, Span.mk 1 5], sp.start < sp.stop) ∧
     List.Pairwise (fun a b : Span => a.stop < b.start)
       (normalizeRanges [Span.mk 0 4, Span.mk 1 5]) ∧
     (∀ n, coveredBy (normalizeRanges [Span.mk 0 4, Span.mk 1 5]) n =
        coveredBy [Span.mk 0 4, Span.mk 1 5] n)) :=
  ⟨by decide, by decide,
   normalizeRanges_disjoint_ordered_union [Span.mk 0 4, Span.mk 1 5] (by decide) (by decide)⟩

/-- C8 counterexample: the ranges `[0,10)`, `[2,3)` are ordered by start,
but the second is nested inside the first; the `else` arm overwrites `end`
with `r.end`, shrinking the accumulated span, so the output `[0,3)` no
longer covers position 5 although the input does — the union is not
preserved, refuting the claim as stated. -/
theorem normalizeRanges_nested_range_loses_text :
    normalizeRanges [Span.mk 0 10, Span.mk 2 3] = [Span.mk 0 3] ∧
    (Span.mk 0 10).start ≤ (Span.mk 2 3).start ∧
    coveredBy [Span.mk 0 10, Span.mk 2 3] 5 = true ∧
    coveredBy (normalizeRanges [Span.mk 0 10, Span.mk 2 3]) 5 = false := by
  decide

/-! ## Additional supporting results -/

def optionPageBytes : Option CachedPage → Nat
  | some p => p.html.utf8ByteSize
  | none => 0

theorem cacheBytes_indexMapInsert (m : List (String × CachedPage)) (k : String)
    (v : CachedPage) :
    cacheBytes (indexMapInsert m k v).1 + optionPageBytes (indexMapInsert m k v).2 =
      cacheBytes m + v.html.utf8ByteSize := by
  induction m with
  | nil => simp [indexMapInsert, cacheBytes, optionPageBytes]
  | cons hd tl ih =>
    obtain ⟨k', v'⟩ := hd
    by_cases h : k' = k
    · have hins : indexMapInsert ((k', v') :: tl) k v = ((k', v) :: tl, some v') := by
        simp [indexMapInsert, h]
      rw [hins]
      simp only [cacheBytes, optionPageBytes, List.map_cons, List.sum_cons]
      omega
    · have hins : indexMapInsert ((k', v') :: tl) k v =
          ((k', v') :: (indexMapInsert tl k v).1, (indexMapInsert tl k v).2) := by
        simp [indexMapInsert, h]
      rw [hins]
      simp only [cacheBytes, List.map_cons, List.sum_cons] at ih ⊢
      omega

theorem indexMapInsert_prev_le (m : List (String × CachedPage)) (k : String)
    (v : CachedPage) :
    optionPageBytes (indexMapInsert m k v).2 ≤ cacheBytes m := by
  induction m with
  | nil => simp [indexMapInsert, optionPageBytes]
  | cons hd tl ih =>
    obtain ⟨k', v'⟩ := hd
    by_cases h : k' = k
    · have hins : indexMapInsert ((k', v') :: tl) k v = ((k', v) :: tl, some v') := by
        simp [indexMapInsert, h]
      rw [hins]
      simp only [cacheBytes, optionPageBytes, List.map_cons, List.sum_cons]
      omega
    · have hins : indexMapInsert ((k', v') :: tl) k v =
          ((k', v') :: (indexMapInsert tl k v).1, (indexMapInsert tl k v).2) := by
        simp [indexMapInsert, h]
      rw [hins]
      simp only [cacheBytes, List.map_cons, List.sum_cons] at ih ⊢
      omega

/-- `ResultCache::add` does keep the tracked size equal to the stored
bytes: the discrepancies of C1/C2 come only from the compactor and from
`clear`/`Clean`. -/
theorem resultCache_add_preserves_sizeInvariant (w : WrappedCache) (path html : String)
    (modtime : Nat) (h : sizeInvariant w) :
    sizeInvariant (ResultCache.add w path html modtime).1 := by
  unfold sizeInvariant at h ⊢
  have hins := cacheBytes_indexMapInsert w.cache path { modtime := modtime, html := html }
  have hle := indexMapInsert_prev_le w.cache path { modtime := modtime, html := html }
  rcases hp : (indexMapInsert w.cache path { modtime := modtime, html := html }).2 with _ | p
  · rw [hp] at hins hle
    simp only [optionPageBytes] at hins hle
    simp [ResultCache.add, hp]
    omega
  · rw [hp] at hins hle
    simp only [optionPageBytes] at hins hle
    simp [ResultCache.add, hp]
    show w.current_size - p.html.utf8ByteSize + html.utf8ByteSize =
      cacheBytes (indexMapInsert w.cache path { modtime := modtime, html := html }).1
    omega

/-- Fidelity check: the embedding reproduces the repository's own test
`test_first_heading_is_also_title` (document_scraper.rs:296-310). -/
theorem parseMarkdown_matches_repo_title_test :
    (parseMarkdownScrape
      [.start (.heading 1), .text "The title", .endTag (.heading 1),
       .start .otherTag, .text "Body", .endTag .otherTagEnd,
       .start (.heading 2), .text "Subhead", .endTag (.heading 2),
       .start .otherTag, .text "Body 2", .endTag .otherTagEnd]).title =
        some "The title" ∧
    (parseMarkdownScrape
      [.start (.heading 1), .text "The title", .endTag (.heading 1),
       .start .otherTag, .text "Body", .endTag .otherTagEnd,
       .start (.heading 2), .text "Subhead", .endTag (.heading 2),
       .start .otherTag, .text "Body 2", .endTag .otherTagEnd]).internal_links =
      [{ anchor := "the-title", name := "The title", level := 1 },
       { anchor := "subhead", name := "Subhead", level := 2 }] := by
  decide

/-- Fidelity check: the slug of the repository's own test
`test_heart_in_md_heading` (document_scraper.rs:284-293). -/
theorem slugifyStr_matches_repo_heart_test : slugifyStr "Kisses <3!" = "kisses-3" := by
  decide
